import Mathlib

/-!
# Verification of the `pqca` lattice-partitioning and winding engine

Shallow embedding of the `pqca` Python package (files `pqca/tessellation.py`,
`pqca/vector.py`, `pqca/update_frame.py`, `pqca/__init__.py`) together with
proofs about the embedded definitions.

Python exceptions are modelled by `Except`-valued functions; Python's
unbounded integers by `Int` (counts and shapes by `Nat` where the source only
ever receives non-negative counts); Python lists by Lean lists.
-/

namespace PQCA

/-- The distinct errors raised while building a `Tessellation`
(`pqca/exceptions.py`): `NoCellsException`, `EmptyCellException`,
`PartitionUnevenlyCoversQubits`, `IrregularCellSize`,
`IrregularCoordinateDimensions`. -/
inductive TessError : Type where
  | noCells : TessError
  | emptyCell : TessError
  | unevenCoverage : TessError
  | irregularCellSize : TessError
  | irregularCoordinateDimensions : TessError
deriving DecidableEq, Repr

/-- `Tessellation` (`tessellation.py`): the fields stored by
`Tessellation.__init__` after validation: the list of cells (each a list of
qubit names, Python ints) and `size`, the sum of the cell lengths. -/
structure Tessellation : Type where
  cells : List (List Int)
  size : Nat
deriving DecidableEq, Repr

/-- `Tessellation.__init__` (`tessellation.py` lines 20-46): validates the
cell list and on success stores it together with `size = sum(len(c))`.
The checks, in source order:
* `len(cells) == 0` raises `NoCellsException`;
* `len(cells[0]) == 0` raises `EmptyCellException`;
* `len({q for cell in cells for q in cell}) != size` (a duplicate qubit name
  exists) raises `PartitionUnevenlyCoversQubits`; the set cardinality is
  modelled by `List.dedup`;
* `len({len(cell) for cell in cells}) != 1` (two cells of different length)
  raises `IrregularCellSize`. -/
def from_cells (cells : List (List Int)) : Except TessError Tessellation :=
  if cells.length = 0 then
    Except.error TessError.noCells
  else if (cells.headD []).length = 0 then
    Except.error TessError.emptyCell
  else
    if (cells.flatten.dedup).length ≠ (cells.map List.length).sum then
      Except.error TessError.unevenCoverage
    else if ((cells.map List.length).dedup).length ≠ 1 then
      Except.error TessError.irregularCellSize
    else
      Except.ok { cells := cells, size := (cells.map List.length).sum }

instance {ε α : Type} [DecidableEq ε] [DecidableEq α] :
    DecidableEq (Except ε α) := fun a b =>
  match a, b with
  | Except.error e, Except.error f => decidable_of_iff (e = f) (by simp)
  | Except.ok x, Except.ok y => decidable_of_iff (x = y) (by simp)
  | Except.error _, Except.ok _ => isFalse (by simp)
  | Except.ok _, Except.error _ => isFalse (by simp)

/-- A `Tessellation` value is valid when it is exactly what the constructor
produces from its own cell list: this is the invariant every `Tessellation`
published by the source satisfies. -/
def Tessellation.Valid (t : Tessellation) : Prop :=
  from_cells t.cells = Except.ok t

instance (t : Tessellation) : Decidable t.Valid := by
  unfold Tessellation.Valid; infer_instance

end PQCA

namespace PQCA

/-! ## Basic facts about `from_cells` -/

theorem dedup_length_eq_iff {α : Type} [DecidableEq α] (l : List α) :
    l.dedup.length = l.length ↔ l.Nodup := by
  constructor
  · intro h
    have hsub : l.dedup.Sublist l := List.dedup_sublist l
    have : l.dedup = l := hsub.eq_of_length h
    simpa [this] using l.nodup_dedup
  · intro h
    rw [List.dedup_eq_self.mpr h]

theorem from_cells_ok_iff (cells : List (List Int)) (t : Tessellation) :
    from_cells cells = Except.ok t ↔
      cells ≠ [] ∧ (cells.headD []) ≠ [] ∧ cells.flatten.Nodup ∧
      ((cells.map List.length).dedup).length = 1 ∧
      t = { cells := cells, size := (cells.map List.length).sum } := by
  have hlen : cells.flatten.length = (cells.map List.length).sum :=
    List.length_flatten cells
  unfold from_cells
  split_ifs with h1 h2 h3 h4
  · rw [List.length_eq_zero] at h1
    simp [h1]
  · rw [List.length_eq_zero] at h1
    rw [List.length_eq_zero] at h2
    simp only [h2]
    constructor
    · intro hc; cases hc
    · rintro ⟨-, hne, -⟩; exact absurd rfl hne
  · rw [List.length_eq_zero] at h1 h2
    constructor
    · intro hc; cases hc
    · rintro ⟨-, -, hnd, -⟩
      exact absurd ((dedup_length_eq_iff _).mpr hnd) (hlen ▸ h3)
  · rw [List.length_eq_zero] at h1 h2
    constructor
    · intro hc; cases hc
    · rintro ⟨-, -, -, hone, -⟩; exact absurd hone h4
  · rw [List.length_eq_zero] at h1 h2
    rw [not_ne_iff, ← hlen] at h3
    rw [not_ne_iff] at h4
    have hnd : cells.flatten.Nodup := (dedup_length_eq_iff _).mp h3
    constructor
    · intro hc
      refine ⟨h1, h2, hnd, h4, ?_⟩
      cases hc; rfl
    · rintro ⟨-, -, -, -, ht⟩
      rw [ht]

theorem fc_noCells_iff (cells : List (List Int)) :
    from_cells cells = Except.error TessError.noCells ↔ cells = [] := by
  unfold from_cells
  split_ifs with h1 h2 h3 h4 <;> rw [List.length_eq_zero] at h1 <;>
    simp [h1]

theorem fc_emptyCell_iff (cells : List (List Int)) :
    from_cells cells = Except.error TessError.emptyCell ↔
      cells ≠ [] ∧ cells.headD [] = [] := by
  unfold from_cells
  split_ifs with h1 h2 h3 h4 <;> rw [List.length_eq_zero] at h1
  · simp [h1]
  all_goals
    obtain ⟨c, rest, rfl⟩ := List.exists_cons_of_ne_nil h1
  all_goals
    rw [List.length_eq_zero] at h2
  all_goals
    simp only [List.headD_cons] at h2 ⊢
  all_goals simp [h2]

theorem fc_uneven_iff (cells : List (List Int)) :
    from_cells cells = Except.error TessError.unevenCoverage ↔
      cells ≠ [] ∧ cells.headD [] ≠ [] ∧ ¬ cells.flatten.Nodup := by
  have hlen : cells.flatten.length = (cells.map List.length).sum :=
    List.length_flatten cells
  unfold from_cells
  split_ifs with h1 h2 h3 h4 <;> rw [List.length_eq_zero] at h1
  · simp [h1]
  all_goals
    obtain ⟨c, rest, rfl⟩ := List.exists_cons_of_ne_nil h1
  all_goals
    rw [List.length_eq_zero] at h2
  all_goals
    simp only [List.headD_cons] at h2 ⊢
  · simp [h2]
  · rw [← hlen] at h3
    have hnd : ¬ ((c :: rest).flatten).Nodup := fun hn =>
      h3 ((dedup_length_eq_iff _).mpr hn)
    rw [List.flatten_cons] at hnd
    simp [h2, hnd]
  · rw [not_ne_iff, ← hlen] at h3
    have hnd : ((c :: rest).flatten).Nodup := (dedup_length_eq_iff _).mp h3
    rw [List.flatten_cons] at hnd
    simp [h2, hnd]
  · rw [not_ne_iff, ← hlen] at h3
    have hnd : ((c :: rest).flatten).Nodup := (dedup_length_eq_iff _).mp h3
    rw [List.flatten_cons] at hnd
    simp [h2, hnd]

theorem fc_irregular_iff (cells : List (List Int)) :
    from_cells cells = Except.error TessError.irregularCellSize ↔
      cells ≠ [] ∧ cells.headD [] ≠ [] ∧ cells.flatten.Nodup ∧
        ((cells.map List.length).dedup).length ≠ 1 := by
  have hlen : cells.flatten.length = (cells.map List.length).sum :=
    List.length_flatten cells
  unfold from_cells
  split_ifs with h1 h2 h3 h4 <;> rw [List.length_eq_zero] at h1
  · simp [h1]
  all_goals
    obtain ⟨c, rest, rfl⟩ := List.exists_cons_of_ne_nil h1
  all_goals
    rw [List.length_eq_zero] at h2
  all_goals
    simp only [List.headD_cons] at h2 ⊢
  · simp [h2]
  · rw [← hlen] at h3
    have hnd : ¬ ((c :: rest).flatten).Nodup := fun hn =>
      h3 ((dedup_length_eq_iff _).mpr hn)
    rw [List.flatten_cons] at hnd
    simp [h2, hnd]
  · rw [not_ne_iff, ← hlen] at h3
    have hnd : ((c :: rest).flatten).Nodup := (dedup_length_eq_iff _).mp h3
    rw [List.flatten_cons] at hnd
    simp only [List.map_cons] at h4
    simp [h2, hnd, h4]
  · rw [not_ne_iff, ← hlen] at h3
    rw [not_ne_iff] at h4
    have hnd : ((c :: rest).flatten).Nodup := (dedup_length_eq_iff _).mp h3
    rw [List.flatten_cons] at hnd
    simp only [List.map_cons] at h4
    simp [h2, hnd, h4]

theorem dedup_length_one_iff {α : Type} [DecidableEq α] (l : List α)
    (h : l ≠ []) : l.dedup.length = 1 ↔ ∃ a, ∀ x ∈ l, x = a := by
  constructor
  · intro h1
    obtain ⟨a, ha⟩ := List.length_eq_one.mp h1
    refine ⟨a, fun x hx => ?_⟩
    have : x ∈ l.dedup := List.mem_dedup.mpr hx
    rw [ha] at this
    simpa using this
  · rintro ⟨a, ha⟩
    have hmem : ∀ x ∈ l.dedup, x = a := fun x hx =>
      ha x (List.mem_dedup.mp hx)
    have hne : l.dedup ≠ [] := fun hd => h ((List.dedup_eq_nil l).mp hd)
    have hnd : l.dedup.Nodup := l.nodup_dedup
    match hd : l.dedup, hne, hnd, hmem with
    | [b], _, _, hm => rfl
    | b :: c :: rest, _, hnd, hm =>
      exact absurd (((hm b (by simp)).trans (hm c (by simp)).symm))
        (by simp at hnd; tauto)

end PQCA

namespace PQCA

theorem not_nodup_iff_two_le_count {α : Type} [DecidableEq α] (l : List α) :
    ¬ l.Nodup ↔ ∃ q ∈ l, 2 ≤ l.count q := by
  rw [List.nodup_iff_count_le_one]
  push_neg
  constructor
  · rintro ⟨a, ha⟩
    exact ⟨a, List.count_pos_iff.mp (by omega), by omega⟩
  · rintro ⟨a, -, ha⟩
    exact ⟨a, by omega⟩

end PQCA

/-- **C1** (amended, corrected): `from_cells` validates in the order
`NoCells` (empty outer list), `EmptyCell` (first cell empty),
`UnevenCoverage` (some qubit name appears at least twice across all cells),
`IrregularCellSize` (two cells of different length); when none of these hold
construction succeeds, stores the cells unchanged with
`size = sum of cell lengths`, and each listed qubit name appears in exactly
one cell exactly once.  Contrary to the original claim, membership of the
union in `[0, size)` is *not* checked: see the counterexample theorem. -/
theorem PQCA.from_cells_validation (cells : List (List Int)) :
    (PQCA.from_cells cells = Except.error PQCA.TessError.noCells ↔
      cells = []) ∧
    (PQCA.from_cells cells = Except.error PQCA.TessError.emptyCell ↔
      cells ≠ [] ∧ cells.headD [] = []) ∧
    (PQCA.from_cells cells = Except.error PQCA.TessError.unevenCoverage ↔
      cells ≠ [] ∧ cells.headD [] ≠ [] ∧
        ∃ q ∈ cells.flatten, 2 ≤ cells.flatten.count q) ∧
    (PQCA.from_cells cells = Except.error PQCA.TessError.irregularCellSize ↔
      cells ≠ [] ∧ cells.headD [] ≠ [] ∧ cells.flatten.Nodup ∧
        ¬ ∃ n, ∀ c ∈ cells, c.length = n) ∧
    ((∃ t, PQCA.from_cells cells = Except.ok t) ↔
      cells ≠ [] ∧ cells.headD [] ≠ [] ∧ cells.flatten.Nodup ∧
        ∃ n, ∀ c ∈ cells, c.length = n) ∧
    (∀ t, PQCA.from_cells cells = Except.ok t →
      t.cells = cells ∧ t.size = (cells.map List.length).sum ∧
      (∀ q ∈ cells.flatten, cells.flatten.count q = 1)) := by
  have hsize : ∀ h : cells ≠ [],
      (((cells.map List.length).dedup).length = 1 ↔
        ∃ n, ∀ c ∈ cells, c.length = n) := by
    intro h
    rw [PQCA.dedup_length_one_iff _ (by simpa using h)]
    constructor
    · rintro ⟨n, hn⟩
      exact ⟨n, fun c hc => hn c.length (List.mem_map_of_mem _ hc)⟩
    · rintro ⟨n, hn⟩
      refine ⟨n, fun x hx => ?_⟩
      obtain ⟨c, hc, rfl⟩ := List.mem_map.mp hx
      exact hn c hc
  refine ⟨PQCA.fc_noCells_iff cells, PQCA.fc_emptyCell_iff cells, ?_, ?_, ?_, ?_⟩
  · rw [PQCA.fc_uneven_iff cells, PQCA.not_nodup_iff_two_le_count]
  · rw [PQCA.fc_irregular_iff cells]
    constructor
    · rintro ⟨h1, h2, h3, h4⟩
      exact ⟨h1, h2, h3, fun hex => h4 ((hsize h1).mpr hex)⟩
    · rintro ⟨h1, h2, h3, h4⟩
      exact ⟨h1, h2, h3, fun hone => h4 ((hsize h1).mp hone)⟩
  · constructor
    · rintro ⟨t, ht⟩
      obtain ⟨h1, h2, h3, h4, -⟩ := (PQCA.from_cells_ok_iff cells t).mp ht
      exact ⟨h1, h2, h3, (hsize h1).mp h4⟩
    · rintro ⟨h1, h2, h3, h4⟩
      exact ⟨_, (PQCA.from_cells_ok_iff cells _).mpr
        ⟨h1, h2, h3, (hsize h1).mpr h4, rfl⟩⟩
  · intro t ht
    obtain ⟨h1, h2, h3, h4, h5⟩ := (PQCA.from_cells_ok_iff cells t).mp ht
    refine ⟨by rw [h5], by rw [h5], fun q hq => ?_⟩
    exact List.count_eq_one_of_mem h3 hq

/-- **C1** counterexample: the cell list `[[1]]` has `size = 1` and its
union `{1}` skips the value `0 ∈ [0, 1)`, so by the claim construction should
fail with `UnevenCoverage`; the code accepts it, and the resulting union is
not `{0, ..., size-1}`. -/
theorem PQCA.from_cells_skips_value_counterexample :
    PQCA.from_cells [[(1 : Int)]] =
      Except.ok { cells := [[(1 : Int)]], size := 1 } ∧
    (0 : Int) ∉ ([[(1 : Int)]] : List (List Int)).flatten := by
  constructor
  · decide
  · decide

namespace PQCA

/-! ## Coordinate vectors (`vector.py`) -/

/-- `Vector` (`vector.py`): a wrapper around a list of integer entries. -/
structure Vector : Type where
  entries : List Int
deriving DecidableEq, Repr

/-- `Vector.extend`: append one entry. -/
def Vector.extend (v : Vector) (next_entry : Int) : Vector :=
  ⟨v.entries ++ [next_entry]⟩

/-- `Vector.action` (`vector.py` lines 23-25): apply a binary action to each
successive pair of entries.  Python's `zip` stops at the shorter operand, so
the result is over the common prefix. -/
def Vector.action (v other : Vector) (act : Int → Int → Int) : Vector :=
  ⟨(v.entries.zip other.entries).map (fun p => act p.1 p.2)⟩

/-- `Vector.__add__`. -/
def Vector.add (v other : Vector) : Vector :=
  v.action other (fun x y => x + y)

/-- `Vector.__sub__`. -/
def Vector.sub (v other : Vector) : Vector :=
  v.action other (fun x y => x - y)

theorem zip_map_eq_zipWith {α β γ : Type} (f : α → β → γ)
    (l : List α) (l' : List β) :
    (l.zip l').map (fun p => f p.1 p.2) = List.zipWith f l l' := by
  induction l generalizing l' with
  | nil => simp
  | cons a l ih =>
    cases l' with
    | nil => simp
    | cons b l' => simp [ih]

end PQCA

/-- **C7** (amended, corrected): `add` and `sub` are component-wise over the
common prefix of the two entry lists (`zipWith`), so when the lengths are
equal they are the full component-wise sum and difference; when the lengths
differ the result is silently truncated to the shorter length — no
`DimensionMismatch` error is ever raised (`Vector.action` has no failure
path). -/
theorem PQCA.Vector_add_sub_componentwise (v w : PQCA.Vector) :
    (v.add w).entries = List.zipWith (fun x y => x + y) v.entries w.entries ∧
    (v.sub w).entries = List.zipWith (fun x y => x - y) v.entries w.entries ∧
    (v.add w).entries.length = min v.entries.length w.entries.length ∧
    (v.sub w).entries.length = min v.entries.length w.entries.length := by
  refine ⟨zip_map_eq_zipWith _ _ _, zip_map_eq_zipWith _ _ _, ?_, ?_⟩ <;>
    simp [Vector.add, Vector.sub, Vector.action]

/-- **C7** counterexample: adding vectors of lengths 2 and 1 does not fail;
it returns the truncated component-wise sum `Vector([6])`. -/
theorem PQCA.Vector_unequal_length_counterexample :
    PQCA.Vector.add ⟨[1, 2]⟩ ⟨[5]⟩ = ⟨[6]⟩ ∧
    PQCA.Vector.sub ⟨[1, 2]⟩ ⟨[5]⟩ = ⟨[-4]⟩ ∧
    ([1, 2] : List Int).length ≠ ([5] : List Int).length := by
  refine ⟨by decide, by decide, by decide⟩

namespace PQCA

/-! ## Lexicographic linearization (`_vector_to_name`, `tessellation.py`) -/

/-- `_vector_to_name` (`tessellation.py` lines 181-203):
`functools.reduce(unpack, enumerate(qubit_vector.entries), 0)` where
`unpack(acc, (index, length)) = acc + length * reduce(multiply,
qubits_in_each_dimension[index+1:], 1)` and `multiply(acc, entry) =
entry * acc`.  The inner reduces are inlined as `List.foldl`. -/
def vector_to_name (qubit_vector : Vector)
    (qubits_in_each_dimension : List Int) : Int :=
  (qubit_vector.entries.enum).foldl
    (fun acc ie =>
      acc + ie.2 * ((qubits_in_each_dimension.drop (ie.1 + 1)).foldl
        (fun acc' entry => entry * acc') 1)) 0

/-- Modelled from the spec: decoding a linear index back into a coordinate
vector under a shape (§4.2: "decoding any produced index and re-deriving its
vector (not required as a public operation)"); no decoder exists in the
source, so this follows the spec's row-major rule — the leading coordinate
is the quotient by the product of the remaining extents, recursively. -/
def name_to_vector (shape : List Nat) (name : Nat) : List Nat :=
  match shape with
  | [] => []
  | _ :: rest => name / rest.prod :: name_to_vector rest (name % rest.prod)

theorem foldl_mul_comm (l : List Int) (x : Int) :
    l.foldl (fun acc' entry => entry * acc') x = x * l.prod := by
  induction l generalizing x with
  | nil => simp
  | cons e l ih =>
    rw [List.foldl_cons, ih, List.prod_cons]
    ring

/-- Weighted running sum over an already-enumerated entry list. -/
def wsum (dims : List Int) (l : List (Nat × Int)) : Int :=
  (l.map (fun ie => ie.2 * (dims.drop (ie.1 + 1)).prod)).sum

theorem foldl_weighted (dims : List Int) (l : List (Nat × Int)) (a : Int) :
    l.foldl
      (fun acc ie =>
        acc + ie.2 * ((dims.drop (ie.1 + 1)).foldl
          (fun acc' entry => entry * acc') 1)) a
      = a + wsum dims l := by
  induction l generalizing a with
  | nil => simp [wsum]
  | cons ie l ih =>
    rw [List.foldl_cons, ih, foldl_mul_comm]
    simp only [wsum, List.map_cons, List.sum_cons]
    ring

theorem vector_to_name_eq_wsum (v : Vector) (dims : List Int) :
    vector_to_name v dims = wsum dims v.entries.enum := by
  rw [vector_to_name, foldl_weighted, zero_add]

theorem wsum_enumFrom_shift (d : Int) (ds : List Int) (es : List Int)
    (k : Nat) :
    wsum (d :: ds) (es.enumFrom (k + 1)) = wsum ds (es.enumFrom k) := by
  induction es generalizing k with
  | nil => rfl
  | cons e es ih =>
    rw [List.enumFrom_cons, List.enumFrom_cons, wsum, List.map_cons,
      List.sum_cons, wsum, List.map_cons, List.sum_cons]
    have hd : (d :: ds).drop (k + 1 + 1) = ds.drop (k + 1) := rfl
    rw [hd, ← wsum, ← wsum, ih]

/-- The clean recursion computed by `_vector_to_name` on equal-length
natural inputs. -/
def natIndex : List Nat → List Nat → Nat
  | [], _ => 0
  | _ :: _, [] => 0
  | x :: xs, _ :: ds => x * ds.prod + natIndex xs ds

theorem wsum_natCast (v shape : List Nat) (h : v.length = shape.length) :
    wsum (shape.map (fun n : Nat => (n : Int)))
        ((v.map (fun n : Nat => (n : Int))).enum) = (natIndex v shape : Int) := by
  induction v generalizing shape with
  | nil => simp [wsum, natIndex]
  | cons x xs ih =>
    cases shape with
    | nil => simp at h
    | cons d ds =>
      rw [List.map_cons, List.map_cons]
      rw [show ((x : Int) :: xs.map (fun n : Nat => (n : Int))).enum
            = (0, (x : Int)) ::
              (xs.map (fun n : Nat => (n : Int))).enumFrom 1 from rfl]
      rw [wsum, List.map_cons, List.sum_cons, ← wsum]
      rw [show ((d : Int) :: ds.map (fun n : Nat => (n : Int))).drop (0 + 1)
            = ds.map (fun n : Nat => (n : Int)) from rfl]
      rw [wsum_enumFrom_shift]
      have hxs : (xs.map (fun n : Nat => (n : Int))).enumFrom 0
          = (xs.map (fun n : Nat => (n : Int))).enum := rfl
      rw [hxs, ih ds (by simpa using h)]
      rw [natIndex]
      push_cast
      ring

theorem prod_pos_of_forall_lt {v shape : List Nat}
    (h : List.Forall₂ (fun a b => a < b) v shape) : 0 < shape.prod := by
  induction h with
  | nil => simp
  | cons hx h ih =>
    rw [List.prod_cons]
    exact Nat.mul_pos (by omega) ih

theorem natIndex_lt {v shape : List Nat}
    (h : List.Forall₂ (fun a b => a < b) v shape) :
    natIndex v shape < shape.prod := by
  induction h with
  | nil => simp [natIndex]
  | @cons x d xs ds hx h ih =>
    rw [natIndex, List.prod_cons]
    calc x * ds.prod + natIndex xs ds < x * ds.prod + ds.prod := by omega
    _ = (x + 1) * ds.prod := by ring
    _ ≤ d * ds.prod := Nat.mul_le_mul_right _ (by omega)

theorem name_to_vector_natIndex {v shape : List Nat}
    (h : List.Forall₂ (fun a b => a < b) v shape) :
    name_to_vector shape (natIndex v shape) = v := by
  induction h with
  | nil => rfl
  | @cons x d xs ds hx h ih =>
    have hP : 0 < ds.prod := prod_pos_of_forall_lt h
    have hr : natIndex xs ds < ds.prod := natIndex_lt h
    rw [natIndex, name_to_vector, mul_comm, Nat.mul_add_div hP,
      Nat.div_eq_of_lt hr, Nat.add_zero, Nat.mul_add_mod,
      Nat.mod_eq_of_lt hr, ih]

theorem prod_range_getD (l : List Nat) :
    (∏ j ∈ Finset.range l.length, l.getD j 0) = l.prod := by
  induction l with
  | nil => simp
  | cons d ds ih =>
    rw [List.length_cons, Finset.prod_range_succ']
    simp only [List.getD_cons_succ, List.getD_cons_zero]
    rw [ih, List.prod_cons, mul_comm]

theorem natIndex_formula (v shape : List Nat) (h : v.length = shape.length) :
    natIndex v shape =
      ∑ i ∈ Finset.range v.length,
        v.getD i 0 * ∏ j ∈ Finset.Ico (i + 1) v.length, shape.getD j 0 := by
  induction v generalizing shape with
  | nil => simp [natIndex]
  | cons x xs ih =>
    cases shape with
    | nil => simp at h
    | cons d ds =>
      have hlen : xs.length = ds.length := by simpa using h
      rw [natIndex, List.length_cons, Finset.sum_range_succ']
      have h0 : (x :: xs).getD 0 0 *
          ∏ j ∈ Finset.Ico (0 + 1) (xs.length + 1), (d :: ds).getD j 0
          = x * ds.prod := by
        rw [List.getD_cons_zero, Finset.prod_Ico_eq_prod_range]
        simp only [Nat.add_sub_cancel]
        have : ∀ j, (d :: ds).getD (0 + 1 + j) 0 = ds.getD j 0 := by
          intro j
          rw [show 0 + 1 + j = j + 1 by omega, List.getD_cons_succ]
        rw [Finset.prod_congr rfl (fun j _ => this j), hlen, prod_range_getD]
      have hterm : ∀ i,
          (x :: xs).getD (i + 1) 0 *
            ∏ j ∈ Finset.Ico (i + 1 + 1) (xs.length + 1), (d :: ds).getD j 0
          = xs.getD i 0 * ∏ j ∈ Finset.Ico (i + 1) xs.length, ds.getD j 0 := by
        intro i
        rw [List.getD_cons_succ, Finset.prod_Ico_eq_prod_range,
          Finset.prod_Ico_eq_prod_range]
        have hn : xs.length + 1 - (i + 1 + 1) = xs.length - (i + 1) := by omega
        rw [hn]
        refine congrArg _ (Finset.prod_congr rfl (fun j _ => ?_))
        rw [show i + 1 + 1 + j = (i + 1 + j) + 1 by omega, List.getD_cons_succ]
      rw [Finset.sum_congr rfl (fun i _ => hterm i), h0, ih ds hlen]
      omega

end PQCA

/-- **C2**: for every coordinate vector `v` and shape of the same length with
`v[i] < shape[i]` componentwise, `_vector_to_name` returns exactly
`Σ_i v[i] * Π_{j>i} shape[j]` (row-major, exact integer arithmetic), and
decoding that index under the same shape reconstructs `v`. -/
theorem PQCA.vector_to_name_formula_and_roundtrip (v shape : List Nat)
    (h : List.Forall₂ (fun a b => a < b) v shape) :
    PQCA.vector_to_name ⟨v.map (fun n : Nat => (n : Int))⟩
        (shape.map (fun n : Nat => (n : Int))) =
      (∑ i ∈ Finset.range v.length,
        (v.getD i 0 : Int) *
          ∏ j ∈ Finset.Ico (i + 1) v.length, (shape.getD j 0 : Int)) ∧
    PQCA.name_to_vector shape
      (PQCA.vector_to_name ⟨v.map (fun n : Nat => (n : Int))⟩
        (shape.map (fun n : Nat => (n : Int)))).toNat = v := by
  have hlen : v.length = shape.length := h.length_eq
  have hb : PQCA.vector_to_name ⟨v.map (fun n : Nat => (n : Int))⟩
      (shape.map (fun n : Nat => (n : Int))) = (PQCA.natIndex v shape : Int) := by
    rw [PQCA.vector_to_name_eq_wsum]
    exact PQCA.wsum_natCast v shape hlen
  constructor
  · rw [hb, PQCA.natIndex_formula v shape hlen]
    push_cast
    rfl
  · rw [hb, Int.toNat_natCast]
    exact PQCA.name_to_vector_natIndex h

/-- **C2** witness: the theorem applied to `v = [1, 2]`, `shape = [2, 3]`. -/
theorem PQCA.vector_to_name_formula_and_roundtrip_witness :
    List.Forall₂ (fun a b => a < b) [1, 2] [2, 3] ∧
    (PQCA.vector_to_name ⟨([1, 2] : List Nat).map (fun n : Nat => (n : Int))⟩
        (([2, 3] : List Nat).map (fun n : Nat => (n : Int))) =
      (∑ i ∈ Finset.range ([1, 2] : List Nat).length,
        (([1, 2] : List Nat).getD i 0 : Int) *
          ∏ j ∈ Finset.Ico (i + 1) ([1, 2] : List Nat).length,
            (([2, 3] : List Nat).getD j 0 : Int)) ∧
    PQCA.name_to_vector [2, 3]
      (PQCA.vector_to_name ⟨([1, 2] : List Nat).map (fun n : Nat => (n : Int))⟩
        (([2, 3] : List Nat).map (fun n : Nat => (n : Int)))).toNat = [1, 2]) :=
  ⟨by decide, PQCA.vector_to_name_formula_and_roundtrip [1, 2] [2, 3]
    (by decide)⟩

namespace PQCA

/-! ## Renaming and shifting (`Tessellation.update_names` / `shifted_by`) -/

/-- First loop of `make_address_positive` (`tessellation.py` lines 79-81):
`while qubit_name < 0: qubit_name += size`.  The guard also requires
`0 < size` for termination; the source guarantees this (every constructed
`Tessellation` has at least one non-empty cell) and would loop forever
otherwise. -/
def addLoop (size : Nat) (q : Int) : Int :=
  if 0 < size ∧ q < 0 then addLoop size (q + size) else q
termination_by (-q).toNat
decreasing_by omega

/-- Second loop of `make_address_positive` (`tessellation.py` lines 82-83):
`while qubit_name >= size: qubit_name -= size`, with the same `0 < size`
termination guard. -/
def subLoop (size : Nat) (q : Int) : Int :=
  if 0 < size ∧ (size : Int) ≤ q then subLoop size (q - size) else q
termination_by q.toNat
decreasing_by omega

/-- `make_address_positive` (`tessellation.py` lines 79-84). -/
def make_address_positive (size : Nat) (q : Int) : Int :=
  subLoop size (addLoop size q)

/-- `Tessellation.update_names` (`tessellation.py` lines 62-88): rename every
qubit, wrapping into `[0, size)` by repeated correction when
`rename_modulo_size` is set; the new cell list goes through the validating
constructor. -/
def Tessellation.update_names (t : Tessellation) (name_update : Int → Int)
    (rename_modulo_size : Bool) : Except TessError Tessellation :=
  if rename_modulo_size then
    from_cells (t.cells.map (fun cell =>
      cell.map (fun c => make_address_positive t.size (name_update c))))
  else
    from_cells (t.cells.map (fun cell => cell.map (fun c => name_update c)))

/-- `Tessellation.shifted_by` (`tessellation.py` lines 48-60). -/
def Tessellation.shifted_by (t : Tessellation) (amount : Int) :
    Except TessError Tessellation :=
  t.update_names (fun x => x + amount) true

theorem addLoop_emod (size : Nat) :
    ∀ q : Int, addLoop size q % (size : Int) = q % (size : Int) := by
  refine addLoop.induct size
    (fun q => addLoop size q % (size : Int) = q % (size : Int)) ?_ ?_
  · intro q h ih
    unfold addLoop
    rw [if_pos h, ih]
    have he : q + (size : Int) = q + (size : Int) * 1 := by ring
    rw [he, Int.add_mul_emod_self_left]
  · intro q h
    unfold addLoop
    rw [if_neg h]

theorem addLoop_nonneg (size : Nat) (hs : 0 < size) :
    ∀ q : Int, 0 ≤ addLoop size q := by
  refine addLoop.induct size (fun q => 0 ≤ addLoop size q) ?_ ?_
  · intro q h ih
    unfold addLoop
    rw [if_pos h]
    exact ih
  · intro q h
    unfold addLoop
    rw [if_neg h]
    omega

theorem subLoop_emod (size : Nat) :
    ∀ q : Int, subLoop size q % (size : Int) = q % (size : Int) := by
  refine subLoop.induct size
    (fun q => subLoop size q % (size : Int) = q % (size : Int)) ?_ ?_
  · intro q h ih
    unfold subLoop
    rw [if_pos h, ih]
    have he : q - (size : Int) = q + (size : Int) * (-1) := by ring
    rw [he, Int.add_mul_emod_self_left]
  · intro q h
    unfold subLoop
    rw [if_neg h]

theorem subLoop_bounds (size : Nat) (hs : 0 < size) :
    ∀ q : Int, 0 ≤ q → 0 ≤ subLoop size q ∧ subLoop size q < (size : Int) := by
  refine subLoop.induct size
    (fun q => 0 ≤ q → 0 ≤ subLoop size q ∧ subLoop size q < (size : Int)) ?_ ?_
  · intro q h ih hq
    unfold subLoop
    rw [if_pos h]
    exact ih (by omega)
  · intro q h hq
    unfold subLoop
    rw [if_neg h]
    omega

/-- The two wrap loops together compute the true non-negative residue. -/
theorem make_address_positive_eq_emod (size : Nat) (q : Int)
    (hs : 0 < size) :
    make_address_positive size q = q % (size : Int) := by
  have h1 : 0 ≤ addLoop size q := addLoop_nonneg size hs q
  have h2 := subLoop_bounds size hs (addLoop size q) h1
  have h3 : subLoop size (addLoop size q) % (size : Int) = q % (size : Int) := by
    rw [subLoop_emod size, addLoop_emod size]
  have h4 : subLoop size (addLoop size q) % (size : Int)
      = subLoop size (addLoop size q) := Int.emod_eq_of_lt h2.1 h2.2
  rw [make_address_positive, ← h4, h3]

theorem flatten_map_map {α β : Type} (f : α → β) (L : List (List α)) :
    (L.map (fun cell => cell.map f)).flatten = L.flatten.map f := by
  induction L with
  | nil => rfl
  | cons c rest ih =>
    simp only [List.map_cons, List.flatten_cons, List.map_append, ih]

theorem valid_facts (t : Tessellation) (hv : t.Valid) :
    t.cells ≠ [] ∧ (t.cells.headD []) ≠ [] ∧ t.cells.flatten.Nodup ∧
    ((t.cells.map List.length).dedup).length = 1 ∧
    t.size = (t.cells.map List.length).sum := by
  obtain ⟨h1, h2, h3, h4, h5⟩ := (from_cells_ok_iff t.cells t).mp hv
  exact ⟨h1, h2, h3, h4, by rw [h5]⟩

theorem valid_size_pos (t : Tessellation) (hv : t.Valid) : 0 < t.size := by
  obtain ⟨h1, h2, -, -, h5⟩ := valid_facts t hv
  obtain ⟨c, rest, hc⟩ := List.exists_cons_of_ne_nil h1
  rw [hc, List.headD_cons] at h2
  rw [h5, hc, List.map_cons, List.sum_cons]
  have : 0 < c.length := List.length_pos.mpr h2
  omega

end PQCA

namespace PQCA

theorem map_map_lengths (f : Int → Int) (L : List (List Int)) :
    ((L.map (fun cell => cell.map f)).map List.length) = L.map List.length := by
  induction L with
  | nil => rfl
  | cons c rest ih => simp [ih]

theorem shift_wrap_injOn (s a : Int) (l : List Int)
    (hrange : ∀ q ∈ l, 0 ≤ q ∧ q < s) :
    ∀ x ∈ l, ∀ y ∈ l, (x + a) % s = (y + a) % s → x = y := by
  intro x hx y hy heq
  have hmx : x % s = x := Int.emod_eq_of_lt (hrange x hx).1 (hrange x hx).2
  have hmy : y % s = y := Int.emod_eq_of_lt (hrange y hy).1 (hrange y hy).2
  have hmod : Int.ModEq s (x + a) (y + a) := heq
  have hxy : Int.ModEq s x y := by
    have := Int.ModEq.sub_right a hmod
    simpa using this
  have : x % s = y % s := hxy
  rw [hmx, hmy] at this
  exact this

theorem unwrap_cancel (s a x : Int) (hx : 0 ≤ x) (hxs : x < s) :
    ((x + a) % s + -a) % s = x := by
  have m1 : Int.ModEq s ((x + a) % s) (x + a) :=
    Int.emod_emod_of_dvd (x + a) dvd_rfl
  have m2 : Int.ModEq s ((x + a) % s + -a) (x + a + -a) :=
    Int.ModEq.add_right (-a) m1
  have m3 : ((x + a) % s + -a) % s = (x + a + -a) % s := m2
  rw [m3, show x + a + -a = x by ring]
  exact Int.emod_eq_of_lt hx hxs

end PQCA

/-- **C4**: for every valid `Tessellation` whose site indices lie in
`[0, size)` and every integer `amount` (negative and multi-period included),
`shifted_by` succeeds and replaces every site index `x` by
`(x + amount) % size` (true modulo), keeps `size`, and applying `shifted_by`
again with `-amount` reconstructs the original cell contents exactly. -/
theorem PQCA.shifted_by_mod_and_roundtrip (t : PQCA.Tessellation)
    (hv : t.Valid)
    (hrange : ∀ q ∈ t.cells.flatten, 0 ≤ q ∧ q < (t.size : Int)) (a : Int) :
    ∃ t', t.shifted_by a = Except.ok t' ∧
      t'.cells = t.cells.map (fun cell =>
        cell.map (fun x => (x + a) % (t.size : Int))) ∧
      t'.size = t.size ∧
      ∃ t'', t'.shifted_by (-a) = Except.ok t'' ∧ t''.cells = t.cells := by
  obtain ⟨h1, h2, h3, h4, h5⟩ := PQCA.valid_facts t hv
  have hpos : 0 < t.size := PQCA.valid_size_pos t hv
  have hfun : ∀ b : Int, (fun c : Int => PQCA.make_address_positive t.size (c + b))
      = fun c : Int => (c + b) % (t.size : Int) :=
    fun b => funext fun c => PQCA.make_address_positive_eq_emod t.size (c + b) hpos
  -- the shifted cell list
  set C' : List (List Int) := t.cells.map (fun cell =>
    cell.map (fun x => (x + a) % (t.size : Int))) with hC'
  have hdef1 : t.shifted_by a = PQCA.from_cells C' := by
    show PQCA.from_cells (t.cells.map (fun cell =>
      cell.map (fun c => PQCA.make_address_positive t.size (c + a))))
      = PQCA.from_cells C'
    rw [hfun a]
  have hlenmap : C'.map List.length = t.cells.map List.length :=
    PQCA.map_map_lengths _ t.cells
  have hflat : C'.flatten = t.cells.flatten.map
      (fun x => (x + a) % (t.size : Int)) := PQCA.flatten_map_map _ t.cells
  have hnodup : C'.flatten.Nodup := by
    rw [hflat]
    exact List.Nodup.map_on
      (PQCA.shift_wrap_injOn (t.size : Int) a t.cells.flatten hrange) h3
  have hne : C' ≠ [] := by
    intro h
    exact h1 (List.map_eq_nil_iff.mp h)
  have hhead : C'.headD [] ≠ [] := by
    obtain ⟨c, rest, hc⟩ := List.exists_cons_of_ne_nil h1
    rw [hc, List.headD_cons] at h2
    rw [hC', hc, List.map_cons, List.headD_cons]
    intro h
    exact h2 (List.map_eq_nil_iff.mp h)
  have hsum : (C'.map List.length).sum = t.size := by
    rw [hlenmap, ← h5]
  have hdedup : ((C'.map List.length).dedup).length = 1 := by
    rw [hlenmap]; exact h4
  -- the shifted tessellation
  refine ⟨{ cells := C', size := (C'.map List.length).sum }, ?_, rfl, hsum, ?_⟩
  · rw [hdef1]
    exact (PQCA.from_cells_ok_iff C' _).mpr ⟨hne, hhead, hnodup, hdedup, rfl⟩
  · have hsize' : ({ cells := C', size := (C'.map List.length).sum } :
        PQCA.Tessellation).size = t.size := hsum
    have hdef2 : ({ cells := C', size := (C'.map List.length).sum } :
        PQCA.Tessellation).shifted_by (-a) = PQCA.from_cells (C'.map (fun cell =>
          cell.map (fun y => (y + -a) % (t.size : Int)))) := by
      show PQCA.from_cells (C'.map (fun cell => cell.map (fun c =>
        PQCA.make_address_positive (C'.map List.length).sum (c + -a))))
        = _
      rw [show (C'.map List.length).sum = t.size from hsum, hfun (-a)]
    have hback : C'.map (fun cell => cell.map
        (fun y => (y + -a) % (t.size : Int))) = t.cells := by
      rw [hC', List.map_map]
      have : ∀ cell ∈ t.cells,
          ((fun cell => cell.map (fun y => (y + -a) % (t.size : Int))) ∘
            (fun cell => cell.map (fun x => (x + a) % (t.size : Int)))) cell
          = cell := by
        intro cell hcell
        show (cell.map (fun x => (x + a) % (t.size : Int))).map
          (fun y => (y + -a) % (t.size : Int)) = cell
        rw [List.map_map]
        have hid : ∀ x ∈ cell,
            ((fun y => (y + -a) % (t.size : Int)) ∘
              (fun x => (x + a) % (t.size : Int))) x = x := by
          intro x hx
          have hmem : x ∈ t.cells.flatten :=
            List.mem_flatten.mpr ⟨cell, hcell, hx⟩
          exact PQCA.unwrap_cancel (t.size : Int) a x
            (hrange x hmem).1 (hrange x hmem).2
        rw [List.map_congr_left hid]
        simp
      rw [List.map_congr_left this]
      simp
    refine ⟨t, ?_, rfl⟩
    rw [hdef2, hback]
    exact hv

/-- **C4** witness: the theorem applied to the valid two-cell tessellation
`[[0,1],[2,3]]` and `amount = -7`. -/
theorem PQCA.shifted_by_mod_and_roundtrip_witness :
    (PQCA.Tessellation.mk [[0, 1], [2, 3]] 4).Valid ∧
    (∀ q ∈ ([[0, 1], [2, 3]] : List (List Int)).flatten,
      0 ≤ q ∧ q < ((4 : Nat) : Int)) ∧
    (∃ t', (PQCA.Tessellation.mk [[0, 1], [2, 3]] 4).shifted_by (-7)
        = Except.ok t' ∧
      t'.cells = ([[0, 1], [2, 3]] : List (List Int)).map (fun cell =>
        cell.map (fun x => (x + (-7)) % (((PQCA.Tessellation.mk
          [[0, 1], [2, 3]] 4).size : Nat) : Int))) ∧
      t'.size = (PQCA.Tessellation.mk [[0, 1], [2, 3]] 4).size ∧
      ∃ t'', t'.shifted_by (-(-7)) = Except.ok t'' ∧
        t''.cells = [[0, 1], [2, 3]]) :=
  ⟨by decide, by decide,
    PQCA.shifted_by_mod_and_roundtrip (PQCA.Tessellation.mk [[0, 1], [2, 3]] 4)
      (by decide) (by decide) (-7)⟩

namespace PQCA

/-! ## N-dimensional construction (`one_dimensional` / `n_dimensional`) -/

/-- Python `range(0, stop, step)` for `step ≥ 1`: the multiples of `step`
below `stop`, i.e. `⌈stop/step⌉` values starting at 0. -/
def rangeBy (stop step : Nat) : List Nat :=
  List.range' 0 ((stop + step - 1) / step) step

/-- `itertools.product`: Cartesian product of a list of lists, first factor
slowest-varying. -/
def listProd {α : Type} : List (List α) → List (List α)
  | [] => [[]]
  | l :: ls => l.flatMap (fun x => (listProd ls).map (fun xs => x :: xs))

/-- `_cell_of_given_size` (`tessellation.py` lines 111-129): the Cartesian
product of `range(0, d)` over the cell dimensions, each point wrapped as a
`Vector`. -/
def cell_of_given_size (cell_dimension : List Nat) : List Vector :=
  (listProd (cell_dimension.map
    (fun d => (List.range d).map (fun m : Nat => (m : Int))))).map Vector.mk

/-- The divisibility loop of `n_dimensional` (`tessellation.py` lines
152-157): for each dimension `assert length % cell_size[index] == 0` under a
bare `except`, so an out-of-range index (`cell_size` shorter than the shape)
and a zero divisor (Python `ZeroDivisionError`) also surface as
`IrregularCoordinateDimensions`. -/
def divisibilityOk (qubits_in_each_dimension cell_size : List Nat) : Bool :=
  qubits_in_each_dimension.enum.all (fun ie =>
    match cell_size.get? ie.1 with
    | none => false
    | some k => !(k == 0) && (ie.2 % k == 0))

/-- `n_dimensional` (`tessellation.py` lines 132-178): check divisibility,
enumerate focal points (`itertools.product` of stepped ranges), build the
first cell's offsets, add them to each focal point, linearize every vector
with `_vector_to_name`, and validate via the `Tessellation` constructor. -/
def n_dimensional (qubits_in_each_dimension cell_size : List Nat) :
    Except TessError Tessellation :=
  if divisibilityOk qubits_in_each_dimension cell_size then
    let focal_points : List Vector :=
      (listProd (qubits_in_each_dimension.enum.map
        (fun ie => (rangeBy ie.2 (cell_size.getD ie.1 0)).map
          (fun m : Nat => (m : Int))))).map Vector.mk
    let points_in_first_cell := cell_of_given_size cell_size
    let cells_as_vectors := focal_points.map
      (fun focal_point => points_in_first_cell.map
        (fun delta => focal_point.add delta))
    let cells := cells_as_vectors.map (fun cell => cell.map
      (fun qubit_vector => vector_to_name qubit_vector
        (qubits_in_each_dimension.map (fun m : Nat => (m : Int)))))
    from_cells cells
  else
    Except.error TessError.irregularCoordinateDimensions

/-- `one_dimensional` (`tessellation.py` lines 96-108). -/
def one_dimensional (num_qubits cell_size : Nat) :
    Except TessError Tessellation :=
  n_dimensional [num_qubits] [cell_size]

theorem listProd_singleton {α : Type} (l : List α) :
    listProd [l] = l.map (fun x => [x]) := by
  unfold listProd listProd
  induction l with
  | nil => rfl
  | cons x xs ih => simp_all [List.flatMap]

theorem vtn_single (x d : Int) : vector_to_name ⟨[x]⟩ [d] = x := by
  show 0 + x * 1 = x
  ring

theorem range'_eq_map_mul (k : Nat) :
    ∀ (m s : Nat), List.range' s m k = (List.range m).map (fun i => s + i * k) := by
  intro m
  induction m with
  | zero => intro s; rfl
  | succ m ih =>
    intro s
    rw [List.range'_succ, List.range_succ_eq_map, List.map_cons, ih (s + k)]
    rw [List.map_map]
    congr 1
    · simp
    · refine List.map_congr_left (fun i _ => ?_)
      show s + k + i * k = s + Nat.succ i * k
      rw [show Nat.succ i = i + 1 from rfl]
      ring

theorem rangeBy_of_dvd (n k : Nat) (hk : 0 < k) (hdvd : k ∣ n) :
    rangeBy n k = (List.range (n / k)).map (fun i => i * k) := by
  obtain ⟨m, rfl⟩ := hdvd
  have hq : (k * m + k - 1) / k = m := by
    rw [show k * m + k - 1 = (k - 1) + m * k by
      cases k with
      | zero => omega
      | succ k => ring_nf; omega]
    rw [Nat.add_mul_div_right _ _ hk, Nat.div_eq_of_lt (by omega)]
    omega
  rw [rangeBy, hq, Nat.mul_div_cancel_left m hk, range'_eq_map_mul]
  exact List.map_congr_left (fun i _ => by omega)

theorem flatten_blocks (k : Nat) : ∀ (m : Nat),
    (((List.range m).map (fun i => (List.range k).map
      (fun j => i * k + j))).flatten) = List.range (m * k) := by
  intro m
  induction m with
  | zero => simp
  | succ m ih =>
    rw [List.range_succ, List.map_append, List.flatten_append, ih]
    rw [show (m + 1) * k = m * k + k by ring, List.range_add]
    simp

end PQCA

namespace PQCA

theorem vector_add_single (x y : Int) :
    Vector.add ⟨[x]⟩ ⟨[y]⟩ = ⟨[x + y]⟩ := rfl

theorem one_dimensional_eval (n k : Nat) (hk : 0 < k) (hdvd : k ∣ n) :
    one_dimensional n k = from_cells ((List.range (n / k)).map (fun i =>
      (List.range k).map (fun j => ((i * k + j : Nat) : Int)))) := by
  have hdiv : divisibilityOk [n] [k] = true := by
    obtain ⟨m, rfl⟩ := hdvd
    unfold divisibilityOk
    simp [hk.ne', Nat.mul_mod_right]
  unfold one_dimensional n_dimensional
  rw [if_pos hdiv]
  simp only [List.enum_cons, List.enumFrom_nil, List.map_cons, List.map_nil,
    List.getD_cons_zero]
  rw [rangeBy_of_dvd n k hk hdvd]
  simp only [cell_of_given_size, List.map_cons, List.map_nil,
    listProd_singleton, List.map_map]
  refine congrArg from_cells ?_
  refine List.map_congr_left (fun i hi => ?_)
  simp only [Function.comp]
  rw [List.map_map]
  refine List.map_congr_left (fun j hj => ?_)
  simp only [Function.comp]
  rw [vector_add_single, vtn_single]
  push_cast
  ring

end PQCA

namespace PQCA

theorem from_cells_blocks (n k : Nat) (hn : 0 < n) (hk : 0 < k)
    (hdvd : k ∣ n) :
    from_cells ((List.range (n / k)).map (fun i =>
      (List.range k).map (fun j => ((i * k + j : Nat) : Int))))
      = Except.ok (Tessellation.mk ((List.range (n / k)).map (fun i =>
          (List.range k).map (fun j => ((i * k + j : Nat) : Int)))) n) := by
  have hm : 0 < n / k := Nat.div_pos (Nat.le_of_dvd hn hdvd) hk
  have hmk : n / k * k = n := Nat.div_mul_cancel hdvd
  set m := n / k with hmdef
  set cells : List (List Int) := (List.range m).map (fun i =>
    (List.range k).map (fun j => ((i * k + j : Nat) : Int))) with hcells
  have hcast : cells = ((List.range m).map (fun i =>
      (List.range k).map (fun j => i * k + j))).map
        (fun cell => cell.map (fun x : Nat => (x : Int))) := by
    rw [hcells, List.map_map]
    refine List.map_congr_left (fun i _ => ?_)
    simp [Function.comp]
  have hflat : cells.flatten = (List.range (m * k)).map
      (fun x : Nat => (x : Int)) := by
    rw [hcast, flatten_map_map, flatten_blocks]
  have hnodup : cells.flatten.Nodup := by
    rw [hflat]
    exact (List.nodup_range _).map Nat.cast_injective
  have hne : cells ≠ [] := by
    rw [hcells]
    intro h
    rw [List.map_eq_nil_iff, List.range_eq_nil] at h
    omega
  have hhead : cells.headD [] ≠ [] := by
    obtain ⟨i0, rest, hr⟩ := List.exists_cons_of_ne_nil
      (fun h => by rw [List.range_eq_nil] at h; omega :
        List.range m ≠ [])
    rw [hcells, hr, List.map_cons, List.headD_cons]
    intro h
    rw [List.map_eq_nil_iff, List.range_eq_nil] at h
    omega
  have hlens : cells.map List.length = List.replicate m k := by
    rw [hcells, List.map_map]
    have : ∀ i ∈ List.range m,
        (List.length ∘ fun i => (List.range k).map
          (fun j => ((i * k + j : Nat) : Int))) i = k := by
      intro i _
      simp [Function.comp]
    rw [List.map_congr_left this, List.map_const', List.length_range]
  have hded : ((cells.map List.length).dedup).length = 1 := by
    rw [hlens]
    refine (dedup_length_one_iff _ ?_).mpr ⟨k, fun x hx =>
      (List.eq_of_mem_replicate hx)⟩
    intro h
    rw [List.replicate_eq_nil_iff] at h
    omega
  have hsum : (cells.map List.length).sum = n := by
    rw [hlens, List.sum_replicate, smul_eq_mul, hmk]
  have := (from_cells_ok_iff cells
    { cells := cells, size := (cells.map List.length).sum }).mpr
    ⟨hne, hhead, hnodup, hded, rfl⟩
  rw [this, hsum]

end PQCA

/-- **C5**: for positive `n` and `k` with `k ∣ n`, `one_dimensional(n, k)`
produces exactly the `n/k` consecutive blocks
`[[0..k-1], [k..2k-1], ..., [n-k..n-1]]` with `size = n`, and it is (by
definition) the same call as `n_dimensional([n], [k])`. -/
theorem PQCA.one_dimensional_blocks (n k : Nat) (hn : 0 < n) (hk : 0 < k)
    (hdvd : k ∣ n) :
    PQCA.one_dimensional n k = Except.ok
      (PQCA.Tessellation.mk ((List.range (n / k)).map (fun i =>
        (List.range k).map (fun j => ((i * k + j : Nat) : Int)))) n) ∧
    PQCA.one_dimensional n k = PQCA.n_dimensional [n] [k] :=
  ⟨(PQCA.one_dimensional_eval n k hk hdvd).trans
    (PQCA.from_cells_blocks n k hn hk hdvd), rfl⟩

/-- **C5** witness: at `n = 10`, `k = 2`; the first conjunct evaluates to
the five cells `[[0,1],[2,3],[4,5],[6,7],[8,9]]`. -/
theorem PQCA.one_dimensional_blocks_witness :
    (PQCA.one_dimensional 10 2 = Except.ok
      (PQCA.Tessellation.mk ((List.range (10 / 2)).map (fun i =>
        (List.range 2).map (fun j => ((i * 2 + j : Nat) : Int)))) 10) ∧
    PQCA.one_dimensional 10 2 = PQCA.n_dimensional [10] [2]) ∧
    PQCA.one_dimensional 10 2 = Except.ok
      (PQCA.Tessellation.mk [[0, 1], [2, 3], [4, 5], [6, 7], [8, 9]] 10) :=
  ⟨PQCA.one_dimensional_blocks 10 2 (by decide) (by decide) (by decide),
    by decide⟩

/-- **C10**: the zero-dimensional edge case `n_dimensional([], [])` does not
fail: it yields the valid one-cell tessellation `[[0]]` of size 1. -/
theorem PQCA.n_dimensional_empty_shape :
    PQCA.n_dimensional [] [] = Except.ok
      (PQCA.Tessellation.mk [[(0 : Int)]] 1) ∧
    (PQCA.Tessellation.mk [[(0 : Int)]] 1).Valid := by
  constructor
  · decide
  · decide

namespace PQCA

/-! ## Instruction winding (`update_frame.py`) -/

/-- Errors raised while winding (`update_frame.py`):
`CircuitWrongShapeForCell` (the spec's `CircuitTooBigForCell`), plus
`indexError` modelling the Python `IndexError` that `cell[q.index]` would
raise on an out-of-range slot (unreachable for a well-formed qiskit circuit
over a valid tessellation). -/
inductive WindError : Type where
  | circuitWrongShapeForCell : WindError
  | indexError : WindError
deriving DecidableEq, Repr

/-- A qiskit `QuantumCircuit` as `_wind_circuit_around_loop` reads it: the
declared qubit count (`len(circuit.qubits)`) and `circuit.data`, a list of
`(instruction, qargs, cargs)` triples with the instruction payload opaque
(type parameter `Op`), `qargs` the local qubit indices (`q.index`) and
`cargs` the classical arguments, both left uninterpreted.  qiskit guarantees
every `q.index` is below the declared qubit count. -/
structure QuantumCircuit (Op : Type) : Type where
  num_qubits : Nat
  data : List (Op × List Nat × List Nat)
deriving DecidableEq, Repr

/-- One instruction remapped onto one cell: every local index `q` becomes
the global name `cell[q]` (`Qubit(qreg, cell[q.index])`), the payload and
`cargs` are carried over unchanged. -/
def remap_instruction {Op : Type} (cell : List Int)
    (ins : Op × List Nat × List Nat) :
    Except WindError (Op × List Int × List Nat) :=
  match ins.2.1.mapM (fun q => cell.get? q) with
  | none => Except.error WindError.indexError
  | some qs => Except.ok (ins.1, qs, ins.2.2)

/-- `_wind_circuit_around_loop` (`update_frame.py` lines 37-63): guard
`len(circuit.qubits) > len(tessellation.cells[0])`, then the nested loop —
cells outermost, instructions innermost — appending each remapped
instruction to one flat output list. -/
def wind_circuit_around_loop {Op : Type} (circuit : QuantumCircuit Op)
    (tessellation : Tessellation) :
    Except WindError (List (Op × List Int × List Nat)) :=
  if (tessellation.cells.headD []).length < circuit.num_qubits then
    Except.error WindError.circuitWrongShapeForCell
  else do
    let columns ← tessellation.cells.mapM
      (fun cell => circuit.data.mapM (remap_instruction cell))
    pure columns.flatten

theorem mapM_except_ok {α β ε : Type} (f : α → Except ε β) (g : α → β)
    (l : List α) (h : ∀ a ∈ l, f a = Except.ok (g a)) :
    l.mapM f = Except.ok (l.map g) := by
  induction l with
  | nil => rfl
  | cons a l ih =>
    rw [List.mapM_cons, h a (by simp), ih (fun x hx => h x (by simp [hx]))]
    rfl

theorem mapM_option_some {α β : Type} (f : α → Option β) (g : α → β)
    (l : List α) (h : ∀ a ∈ l, f a = some (g a)) :
    l.mapM f = some (l.map g) := by
  induction l with
  | nil => rfl
  | cons a l ih =>
    rw [List.mapM_cons, h a (by simp), ih (fun x hx => h x (by simp [hx]))]
    rfl

theorem mapM_except_error_mem {α β ε : Type} (f : α → Except ε β)
    (l : List α) (e : ε) (h : l.mapM f = Except.error e) :
    ∃ a ∈ l, f a = Except.error e := by
  induction l with
  | nil => exact Except.noConfusion h
  | cons a l ih =>
    rw [List.mapM_cons] at h
    cases hf : f a with
    | error e' =>
      rw [hf] at h
      have he : e' = e := by
        simpa [Bind.bind, Except.bind] using h
      exact ⟨a, by simp, by rw [hf, he]⟩
    | ok b =>
      rw [hf] at h
      cases hl : l.mapM f with
      | error e' =>
        rw [hl] at h
        have he : e' = e := by
          simpa [Bind.bind, Except.bind] using h
        obtain ⟨x, hx, hfx⟩ := ih (by rw [hl, he])
        exact ⟨x, by simp [hx], hfx⟩
      | ok bs =>
        rw [hl] at h
        exact absurd h (by simp [Bind.bind, Except.bind, pure, Except.pure])

theorem remap_instruction_ok {Op : Type} (cell : List Int)
    (ins : Op × List Nat × List Nat)
    (h : ∀ q ∈ ins.2.1, q < cell.length) :
    remap_instruction cell ins =
      Except.ok (ins.1, ins.2.1.map (fun q => cell.getD q 0), ins.2.2) := by
  have hsome : ∀ q ∈ ins.2.1,
      cell.get? q = some (cell.getD q 0) := by
    intro q hq
    cases hget : cell.get? q with
    | none =>
      rw [List.get?_eq_none] at hget
      exact absurd (h q hq) (by omega)
    | some x =>
      have hx : cell.getD q 0 = x := by
        rw [List.getD_eq_getElem?_getD, ← List.get?_eq_getElem?, hget]
        rfl
      rw [hx]
  unfold remap_instruction
  rw [mapM_option_some (fun q => cell.get? q) (fun q => cell.getD q 0)
    ins.2.1 hsome]

theorem remap_instruction_error {Op : Type} (cell : List Int)
    (ins : Op × List Nat × List Nat) (e : WindError)
    (h : remap_instruction cell ins = Except.error e) :
    e = WindError.indexError := by
  unfold remap_instruction at h
  cases hm : ins.2.1.mapM (fun q => cell.get? q) <;> rw [hm] at h <;>
    simp at h
  exact h.symm

theorem cells_uniform (t : Tessellation) (hv : t.Valid) :
    ∀ c ∈ t.cells, c.length = (t.cells.headD []).length := by
  obtain ⟨h1, -, -, h4, -⟩ := valid_facts t hv
  obtain ⟨nn, hnn⟩ := (dedup_length_one_iff _ (by simpa using h1)).mp h4
  intro c hc
  have hhc : t.cells.headD [] ∈ t.cells := by
    obtain ⟨c0, rest, hr⟩ := List.exists_cons_of_ne_nil h1
    rw [hr, List.headD_cons]
    simp [hr]
  rw [hnn c.length (List.mem_map_of_mem _ hc),
    hnn (t.cells.headD []).length (List.mem_map_of_mem _ hhc)]

theorem flatten_get_uniform {β : Type} (m : Nat) :
    ∀ (ls : List (List β)), (∀ x ∈ ls, x.length = m) →
    ∀ (k j : Nat), k < ls.length → j < m →
    ls.flatten.get? (k * m + j) = (ls.getD k []).get? j := by
  intro ls
  induction ls with
  | nil =>
    intro _ k j hk
    simp at hk
  | cons x rest ih =>
    intro hm k j hk hj
    cases k with
    | zero =>
      rw [Nat.zero_mul, Nat.zero_add, List.flatten_cons, List.getD_cons_zero]
      exact List.get?_append (by rw [hm x (by simp)]; omega)
    | succ k =>
      rw [List.flatten_cons, List.getD_cons_succ]
      have hx : x.length = m := hm x (by simp)
      have harith : (k + 1) * m + j = x.length + (k * m + j) := by
        rw [hx]; ring
      rw [harith, List.get?_append_right (by omega)]
      rw [show x.length + (k * m + j) - x.length = k * m + j by omega]
      exact ih (fun y hy => hm y (by simp [hy])) k j (by simpa using hk) hj

end PQCA

/-- **C3**: for every valid `Tessellation` and every circuit whose declared
qubit requirement fits the cell size (with qiskit's invariant that every
`qargs` index is below the declared count), winding succeeds with a list of
length `|cells| × |data|` in which the element at position
`k·|data| + j` is the `j`-th instruction with each local slot `q` remapped
to `cells[k][q]`, payload and `cargs` untouched, cells in stored order and
instructions in given order. -/
theorem PQCA.wind_positions {Op : Type} (circuit : PQCA.QuantumCircuit Op)
    (t : PQCA.Tessellation) (hv : t.Valid)
    (hq : ∀ ins ∈ circuit.data, ∀ q ∈ ins.2.1, q < circuit.num_qubits)
    (hfit : circuit.num_qubits ≤ (t.cells.headD []).length) :
    ∃ out, PQCA.wind_circuit_around_loop circuit t = Except.ok out ∧
      out.length = t.cells.length * circuit.data.length ∧
      ∀ k j ins, k < t.cells.length → circuit.data.get? j = some ins →
        out.get? (k * circuit.data.length + j) = some
          (ins.1, ins.2.1.map (fun q => (t.cells.getD k []).getD q 0),
            ins.2.2) := by
  have huni := PQCA.cells_uniform t hv
  have hinner : ∀ cell ∈ t.cells,
      circuit.data.mapM (PQCA.remap_instruction cell)
        = Except.ok (circuit.data.map (fun ins =>
            (ins.1, ins.2.1.map (fun q => cell.getD q 0), ins.2.2))) := by
    intro cell hcell
    refine PQCA.mapM_except_ok _ _ _ (fun ins hins => ?_)
    refine PQCA.remap_instruction_ok cell ins (fun q hqm => ?_)
    have hb := hq ins hins q hqm
    have hc := huni cell hcell
    omega
  have houter : t.cells.mapM
      (fun cell => circuit.data.mapM (PQCA.remap_instruction cell))
        = Except.ok (t.cells.map (fun cell => circuit.data.map (fun ins =>
            (ins.1, ins.2.1.map (fun q => cell.getD q 0), ins.2.2)))) :=
    PQCA.mapM_except_ok _ _ _ hinner
  refine ⟨(t.cells.map (fun cell => circuit.data.map (fun ins =>
    (ins.1, ins.2.1.map (fun q => cell.getD q 0), ins.2.2)))).flatten,
    ?_, ?_, ?_⟩
  · unfold PQCA.wind_circuit_around_loop
    rw [if_neg (by omega), houter]
    rfl
  · rw [List.length_flatten, List.map_map]
    have hconst : ∀ cell ∈ t.cells, (List.length ∘ fun cell =>
        circuit.data.map (fun ins =>
          (ins.1, ins.2.1.map (fun q => cell.getD q 0), ins.2.2))) cell
        = circuit.data.length := by
      intro cell _
      simp [Function.comp]
    rw [List.map_congr_left hconst, List.map_const', List.sum_replicate,
      smul_eq_mul]
  · intro k j ins hk hj
    have hjlt : j < circuit.data.length := by
      by_contra hcon
      rw [List.get?_eq_none.mpr (by omega)] at hj
      exact Option.noConfusion hj
    have hlens : ∀ x ∈ t.cells.map (fun cell => circuit.data.map (fun ins =>
        (ins.1, ins.2.1.map (fun q => cell.getD q 0), ins.2.2))),
        x.length = circuit.data.length := by
      intro x hx
      obtain ⟨cell, -, rfl⟩ := List.mem_map.mp hx
      simp
    rw [PQCA.flatten_get_uniform circuit.data.length _ hlens k j
      (by simpa using hk) hjlt]
    have hcellk : (t.cells.map (fun cell => circuit.data.map (fun ins =>
        (ins.1, ins.2.1.map (fun q => cell.getD q 0), ins.2.2)))).getD k []
        = circuit.data.map (fun ins =>
            (ins.1, ins.2.1.map (fun q => (t.cells.getD k []).getD q 0),
              ins.2.2)) := by
      rw [List.getD_eq_getElem?_getD, List.getElem?_map,
        List.getElem?_eq_getElem hk]
      rw [List.getD_eq_getElem?_getD, List.getElem?_eq_getElem hk]
      rfl
    rw [hcellk, List.get?_map, hj]
    rfl

/-- **C3** witness: one two-slot instruction with payload token `7` wound
around the two-cell tessellation `[[0,1],[2,3]]`. -/
theorem PQCA.wind_positions_witness :
    (PQCA.Tessellation.mk [[0, 1], [2, 3]] 4).Valid ∧
    (∀ ins ∈ (PQCA.QuantumCircuit.mk 2
        [((7 : Nat), [0, 1], [])]).data, ∀ q ∈ ins.2.1,
      q < (PQCA.QuantumCircuit.mk 2 [((7 : Nat), [0, 1], [])]).num_qubits) ∧
    (PQCA.QuantumCircuit.mk 2 [((7 : Nat), [0, 1], [])]).num_qubits ≤
      ((PQCA.Tessellation.mk [[0, 1], [2, 3]] 4).cells.headD []).length ∧
    (∃ out, PQCA.wind_circuit_around_loop
        (PQCA.QuantumCircuit.mk 2 [((7 : Nat), [0, 1], [])])
        (PQCA.Tessellation.mk [[0, 1], [2, 3]] 4) = Except.ok out ∧
      out.length = (PQCA.Tessellation.mk [[0, 1], [2, 3]] 4).cells.length *
        (PQCA.QuantumCircuit.mk 2 [((7 : Nat), [0, 1], [])]).data.length ∧
      ∀ k j ins, k < (PQCA.Tessellation.mk [[0, 1], [2, 3]] 4).cells.length →
        (PQCA.QuantumCircuit.mk 2 [((7 : Nat), [0, 1], [])]).data.get? j
          = some ins →
        out.get? (k * (PQCA.QuantumCircuit.mk 2
            [((7 : Nat), [0, 1], [])]).data.length + j) = some
          (ins.1, ins.2.1.map (fun q =>
            ((PQCA.Tessellation.mk [[0, 1], [2, 3]] 4).cells.getD k []).getD
              q 0), ins.2.2)) :=
  ⟨by decide, by decide, by decide,
    PQCA.wind_positions (PQCA.QuantumCircuit.mk 2 [((7 : Nat), [0, 1], [])])
      (PQCA.Tessellation.mk [[0, 1], [2, 3]] 4)
      (by decide) (by decide) (by decide)⟩

/-- **C6** (amended, corrected): winding fails with
`CircuitWrongShapeForCell` exactly when the circuit's *declared* qubit count
exceeds the first cell's size; since qiskit keeps every referenced slot
below the declared count, an operation referencing a slot `≥ cell_size`
forces this failure, but the converse over *referenced* slots is false —
see the counterexample. -/
theorem PQCA.wind_fails_iff_declared_count {Op : Type}
    (circuit : PQCA.QuantumCircuit Op) (t : PQCA.Tessellation) :
    PQCA.wind_circuit_around_loop circuit t
        = Except.error PQCA.WindError.circuitWrongShapeForCell
      ↔ (t.cells.headD []).length < circuit.num_qubits := by
  constructor
  · intro h
    by_contra hcon
    unfold PQCA.wind_circuit_around_loop at h
    rw [if_neg hcon] at h
    cases hm : t.cells.mapM
        (fun cell => circuit.data.mapM (PQCA.remap_instruction cell)) with
    | error e =>
      rw [hm] at h
      have he : e = PQCA.WindError.circuitWrongShapeForCell := by
        simpa [Bind.bind, Except.bind] using h
      obtain ⟨cell, -, hcell⟩ := PQCA.mapM_except_error_mem _ _ _
        (by rw [hm, he])
      obtain ⟨ins, -, hins⟩ := PQCA.mapM_except_error_mem _ _ _ hcell
      exact absurd (PQCA.remap_instruction_error _ _ _ hins) (by simp)
    | ok cols =>
      rw [hm] at h
      exact absurd h (by simp [Bind.bind, Except.bind, pure, Except.pure])
  · intro h
    unfold PQCA.wind_circuit_around_loop
    rw [if_pos h]

/-- **C6** counterexample: a circuit that declares 2 qubits but contains no
operation at all (so no slot is referenced by any operation) still fails
with `CircuitWrongShapeForCell` over the valid one-cell tessellation
`[[0]]` of cell size 1, refuting the claimed "if and only if the slots
required by the cell-local operations exceed the cell size". -/
theorem PQCA.wind_declared_count_counterexample :
    PQCA.wind_circuit_around_loop
        (PQCA.QuantumCircuit.mk 2 ([] : List (Unit × List Nat × List Nat)))
        (PQCA.Tessellation.mk [[0]] 1)
      = Except.error PQCA.WindError.circuitWrongShapeForCell ∧
    (PQCA.Tessellation.mk [[0]] 1).Valid ∧
    (PQCA.QuantumCircuit.mk 2
      ([] : List (Unit × List Nat × List Nat))).data = [] := by
  refine ⟨by decide, by decide, rfl⟩

namespace PQCA

/-! ## The automaton loop (`PQCA` in `pqca/__init__.py`) -/

/-- The single failure of `tick`: `assert self.backend, "Backend not yet
assigned"` — the spec's `BackendNotConfigured`. -/
inductive AutomatonError : Type where
  | backendNotConfigured : AutomatonError
deriving DecidableEq, Repr

/-- `pattern_preparation_circuit` (`pqca/__init__.py` lines 87-93): one `x`
gate per truthy entry of the pattern; modelled as the list of qubit
positions receiving an `x` gate, in enumeration order. -/
def pattern_preparation_circuit (pattern : List Int) : List Nat :=
  ((pattern.enum).filter (fun p => p.2 != 0)).map Prod.fst

/-- The `PQCA` object (`pqca/__init__.py` lines 23-74) as `tick`/`iterate`
read it: the current state, the flattened update instructions (opaque, type
parameter `ι` — `tick` never inspects them), and the optional backend.  The
backend receives the combined circuit, modelled as the pair (preparation
`x`-gate positions derived from the current state, update instructions). -/
structure Automaton (ι : Type) : Type where
  state : List Int
  update_instruction : List ι
  backend : Option ((List Nat × List ι) → List Int)

/-- `combined_circuit`: preparation circuit for the current state followed
by the cached update circuit. -/
def combined_circuit {ι : Type} (a : Automaton ι) : List Nat × List ι :=
  (pattern_preparation_circuit a.state, a.update_instruction)

/-- `PQCA.tick` (`pqca/__init__.py` lines 61-65): assert the backend, call
it once on the combined circuit, overwrite the state.  Returns the automaton
after the call — unchanged when the assert fires, since the exception aborts
before any mutation — together with the outcome: the argument passed to the
backend on success, or the error. -/
def tick {ι : Type} (a : Automaton ι) :
    Automaton ι × Except AutomatonError (List Nat × List ι) :=
  match a.backend with
  | none => (a, Except.error AutomatonError.backendNotConfigured)
  | some f =>
    ({ a with state := f (combined_circuit a) }, Except.ok (combined_circuit a))

/-- `PQCA.iterate` (`pqca/__init__.py` lines 67-74): tick
`number_of_iterations` times, appending a copy of the state after each tick.
Besides the Python return value (the list of states), the model also returns
the final automaton and the list of arguments passed to the backend, so the
number of evaluator invocations is observable. -/
def iterate {ι : Type} (a : Automaton ι) (number_of_iterations : Nat) :
    Except AutomatonError
      (List (List Int) × Automaton ι × List (List Nat × List ι)) :=
  match number_of_iterations with
  | 0 => Except.ok ([], a, [])
  | Nat.succ n =>
    match tick a with
    | (_, Except.error e) => Except.error e
    | (a', Except.ok arg) =>
      match iterate a' n with
      | Except.error e => Except.error e
      | Except.ok (states, af, trace) =>
        Except.ok (a'.state :: states, af, arg :: trace)

/-- One evaluator step as a function of the state: the backend applied to
the combined circuit. -/
def stepFn {ι : Type} (f : (List Nat × List ι) → List Int)
    (upd : List ι) (s : List Int) : List Int :=
  f (pattern_preparation_circuit s, upd)

end PQCA

/-- **C8**: with no evaluator bound, `tick` fails with
`BackendNotConfigured` and the automaton — its state in particular — is
returned unchanged: the assert fires before the state assignment. -/
theorem PQCA.tick_no_backend {ι : Type} (a : PQCA.Automaton ι)
    (h : a.backend = none) :
    PQCA.tick a = (a, Except.error PQCA.AutomatonError.backendNotConfigured)
    := by
  unfold PQCA.tick
  rw [h]

/-- **C8** witness: a concrete backend-less automaton. -/
theorem PQCA.tick_no_backend_witness :
    (PQCA.Automaton.mk [0, 1] ([] : List Unit) none).backend = none ∧
    PQCA.tick (PQCA.Automaton.mk [0, 1] ([] : List Unit) none)
      = (PQCA.Automaton.mk [0, 1] ([] : List Unit) none,
        Except.error PQCA.AutomatonError.backendNotConfigured) :=
  ⟨rfl, PQCA.tick_no_backend (PQCA.Automaton.mk [0, 1] ([] : List Unit) none)
    rfl⟩

/-- **C9**: with an evaluator `f` bound, `iterate n` invokes the evaluator
exactly `n` times (the trace of backend arguments has length `n`), returns
the `n` successive states `step¹ s, ..., stepⁿ s` in order — the original
pre-iteration state excluded — and leaves the automaton holding `stepⁿ s`;
at `n = 0` this is the empty list with an empty trace and the state
unchanged. -/
theorem PQCA.iterate_spec {ι : Type} (a : PQCA.Automaton ι)
    (f : (List Nat × List ι) → List Int) (hb : a.backend = some f)
    (n : Nat) :
    PQCA.iterate a n = Except.ok (
      (List.range n).map (fun j =>
        (PQCA.stepFn f a.update_instruction)^[j + 1] a.state),
      { a with state := (PQCA.stepFn f a.update_instruction)^[n] a.state },
      (List.range n).map (fun j =>
        (PQCA.pattern_preparation_circuit
          ((PQCA.stepFn f a.update_instruction)^[j] a.state),
         a.update_instruction))) := by
  induction n generalizing a with
  | zero =>
    simp [PQCA.iterate]
  | succ n ih =>
    have htick : PQCA.tick a =
        ({ a with state := PQCA.stepFn f a.update_instruction a.state },
          Except.ok (PQCA.pattern_preparation_circuit a.state,
            a.update_instruction)) := by
      unfold PQCA.tick
      rw [hb]
      rfl
    rw [PQCA.iterate, htick]
    dsimp only
    rw [ih { a with state := PQCA.stepFn f a.update_instruction a.state } hb]
    rw [List.range_succ_eq_map, List.map_cons, List.map_cons, List.map_map,
      List.map_map]
    refine congrArg Except.ok ?_
    refine congrArg₂ Prod.mk ?_ (congrArg₂ Prod.mk ?_ ?_)
    · refine congrArg₂ List.cons rfl ?_
      refine List.map_congr_left (fun j _ => ?_)
      show (PQCA.stepFn f a.update_instruction)^[j + 1]
          (PQCA.stepFn f a.update_instruction a.state) = _
      rw [← Function.iterate_succ_apply]
      rfl
    · show ({ a with state := _ } : PQCA.Automaton ι) = { a with state := _ }
      rw [← Function.iterate_succ_apply]
    · refine congrArg₂ List.cons rfl ?_
      refine List.map_congr_left (fun j _ => ?_)
      show (PQCA.pattern_preparation_circuit
        ((PQCA.stepFn f a.update_instruction)^[j]
          (PQCA.stepFn f a.update_instruction a.state)),
        a.update_instruction) = _
      rw [← Function.iterate_succ_apply]
      rfl

/-- **C9** witness: two iterations with a constant evaluator. -/
theorem PQCA.iterate_spec_witness :
    (PQCA.Automaton.mk [0, 1] ([] : List Unit)
        (some (fun _ => [1, 0]))).backend = some (fun _ => [1, 0]) ∧
    PQCA.iterate (PQCA.Automaton.mk [0, 1] ([] : List Unit)
        (some (fun _ => [1, 0]))) 2 = Except.ok (
      (List.range 2).map (fun j =>
        (PQCA.stepFn (fun _ => [1, 0])
          (PQCA.Automaton.mk [0, 1] ([] : List Unit)
            (some (fun _ => [1, 0]))).update_instruction)^[j + 1]
          (PQCA.Automaton.mk [0, 1] ([] : List Unit)
            (some (fun _ => [1, 0]))).state),
      { PQCA.Automaton.mk [0, 1] ([] : List Unit)
          (some (fun _ => [1, 0])) with
        state := (PQCA.stepFn (fun _ => [1, 0])
          (PQCA.Automaton.mk [0, 1] ([] : List Unit)
            (some (fun _ => [1, 0]))).update_instruction)^[2]
          (PQCA.Automaton.mk [0, 1] ([] : List Unit)
            (some (fun _ => [1, 0]))).state },
      (List.range 2).map (fun j =>
        (PQCA.pattern_preparation_circuit
          ((PQCA.stepFn (fun _ => [1, 0])
            (PQCA.Automaton.mk [0, 1] ([] : List Unit)
              (some (fun _ => [1, 0]))).update_instruction)^[j]
            (PQCA.Automaton.mk [0, 1] ([] : List Unit)
              (some (fun _ => [1, 0]))).state),
         (PQCA.Automaton.mk [0, 1] ([] : List Unit)
           (some (fun _ => [1, 0]))).update_instruction))) :=
  ⟨rfl, PQCA.iterate_spec (PQCA.Automaton.mk [0, 1] ([] : List Unit)
    (some (fun _ => [1, 0]))) (fun _ => [1, 0]) rfl 2⟩
